import Mathlib

/-!
Verification of the streaming-completion layer of Novel-IDE
(`src-tauri/src/commands.rs`): the overlap deduplicator, the live
emission gate, the bounded continuation controller, the SSE frame
decoder, credential resolution, and the stream-task registry.

Strings are modelled at the level of Unicode scalar values (`List Char`),
matching the Rust code, which iterates `str::chars()` everywhere the
claims are concerned.
-/

set_option maxRecDepth 2000

namespace NovelIDE

/-- Unicode `White_Space` test, matching Rust `char::is_whitespace`. -/
def isRustWhitespace (c : Char) : Bool :=
  let n := c.toNat
  (0x9 ≤ n && n ≤ 0xD) || n = 0x20 || n = 0x85 || n = 0xA0 || n = 0x1680 ||
  (0x2000 ≤ n && n ≤ 0x200A) || n = 0x2028 || n = 0x2029 || n = 0x202F ||
  n = 0x205F || n = 0x3000

/-- Rust `str::trim_start`: drop leading whitespace. -/
def trimStart (l : List Char) : List Char :=
  l.dropWhile isRustWhitespace

/-- Rust `str::trim`: drop leading and trailing whitespace. -/
def trimBoth (l : List Char) : List Char :=
  ((trimStart l).reverse.dropWhile isRustWhitespace).reverse

/-- Rust `char::to_ascii_uppercase`: map `a..z` to `A..Z`, leave the rest. -/
def toAsciiUpper (c : Char) : Char :=
  if 97 ≤ c.toNat && c.toNat ≤ 122 then Char.ofNat (c.toNat - 32) else c

/-- `MAX_OVERLAP_CHARS` from `append_chunk_with_overlap`. -/
def MAX_OVERLAP_CHARS : Nat := 4096

/-- The `for len in (1..=max_overlap).rev()` search loop of
`append_chunk_with_overlap`: the largest `len ≤ bound` whose tail/head
slices coincide, `0` when none matches. -/
def findOverlapFrom (tl hd : List Char) : Nat → Nat
  | 0 => 0
  | l + 1 =>
    if tl.drop (tl.length - (l + 1)) = hd.take (l + 1) then l + 1
    else findOverlapFrom tl hd l

/-- The `tail`/`head`/overlap-search block of `append_chunk_with_overlap`:
last `MAX_OVERLAP_CHARS` chars of the transcript, first `MAX_OVERLAP_CHARS`
chars of the chunk, and the longest-to-shortest search. -/
def overlapOf (fullText chunk : List Char) : Nat :=
  let tl := (fullText.reverse.take MAX_OVERLAP_CHARS).reverse
  let hd := chunk.take MAX_OVERLAP_CHARS
  findOverlapFrom tl hd (min tl.length hd.length)

/-- Embedding of `append_chunk_with_overlap` (commands.rs): merges `chunk`
into `fullText`, removing the longest chunk prefix (within a 4096-char
window) already present at the transcript tail.  Returns the new
transcript, the overlap length, and the appended unique suffix. -/
def appendChunkWithOverlap (fullText chunk : List Char) :
    List Char × Nat × List Char :=
  if chunk = [] then (fullText, 0, [])
  else if fullText = [] then (fullText ++ chunk, 0, chunk)
  else
    let overlap := overlapOf fullText chunk
    if overlap = 0 then (fullText ++ chunk, 0, chunk)
    else
      let suffix := chunk.drop overlap
      (fullText ++ suffix, overlap, suffix)

example : appendChunkWithOverlap "abcd".toList "cdef".toList =
    ("abcdef".toList, 2, "ef".toList) := by decide

example : appendChunkWithOverlap "abcd".toList "xyz".toList =
    ("abcdxyz".toList, 0, "xyz".toList) := by decide

example : appendChunkWithOverlap "aaa".toList "aa".toList =
    ("aaa".toList, 2, []) := by decide

/-- Overlap predicate of the specification: the last `k` characters of the
transcript equal the first `k` characters of the chunk, with
`k ≤ min (4096, transcript length, chunk length)`. -/
def IsOverlapLen (t c : List Char) (k : Nat) : Prop :=
  k ≤ MAX_OVERLAP_CHARS ∧ k ≤ t.length ∧ k ≤ c.length ∧
    t.drop (t.length - k) = c.take k

instance (t c : List Char) (k : Nat) : Decidable (IsOverlapLen t c k) := by
  unfold IsOverlapLen; infer_instance

/-- Property asserted by claim C1 at a (transcript, chunk) pair. -/
def C1Prop (t c : List Char) : Prop :=
  let r := appendChunkWithOverlap t c
  r.1 = t ++ c.drop r.2.1 ∧
  r.2.2 = c.drop r.2.1 ∧
  (r.2.1 ≠ 0 → IsOverlapLen t c r.2.1) ∧
  (∀ j, 1 ≤ j → IsOverlapLen t c j → j ≤ r.2.1)

lemma reverse_take_reverse (l : List Char) (n : Nat) :
    (l.reverse.take n).reverse = l.drop (l.length - n) := by
  rw [← List.rtake_eq_reverse_take_reverse]
  rfl

lemma findOverlapFrom_le (tl hd : List Char) :
    ∀ len, findOverlapFrom tl hd len ≤ len := by
  intro len
  induction len with
  | zero => simp [findOverlapFrom]
  | succ l ih =>
    rw [findOverlapFrom]
    split
    · exact Nat.le_refl _
    · exact Nat.le_trans ih (Nat.le_succ _)

lemma findOverlapFrom_pos (tl hd : List Char) :
    ∀ len, findOverlapFrom tl hd len ≠ 0 →
    tl.drop (tl.length - findOverlapFrom tl hd len) =
      hd.take (findOverlapFrom tl hd len) := by
  intro len
  induction len with
  | zero => intro h; exact absurd rfl h
  | succ l ih =>
    rw [findOverlapFrom]
    split
    · intro _; assumption
    · exact ih

lemma findOverlapFrom_max (tl hd : List Char) :
    ∀ len j, findOverlapFrom tl hd len < j → j ≤ len →
    tl.drop (tl.length - j) ≠ hd.take j := by
  intro len
  induction len with
  | zero => intro j h1 h2; omega
  | succ l ih =>
    intro j h1 h2
    revert h1
    rw [findOverlapFrom]
    split
    · intro h1; omega
    · intro h1
      rcases Nat.lt_or_ge j (l + 1) with hj | hj
      · exact ih j h1 (by omega)
      · have hj' : j = l + 1 := by omega
        subst hj'
        assumption

lemma overlap_core (t c tl hd : List Char) (B k : Nat)
    (htl : tl = t.drop (t.length - MAX_OVERLAP_CHARS))
    (hhd : hd = c.take MAX_OVERLAP_CHARS)
    (hB : B = min tl.length hd.length)
    (hk : k = findOverlapFrom tl hd B) :
    (k ≠ 0 → IsOverlapLen t c k) ∧ ∀ j, 1 ≤ j → IsOverlapLen t c j → j ≤ k := by
  have htl_len : tl.length = t.length - (t.length - MAX_OVERLAP_CHARS) := by
    rw [htl]; exact List.length_drop _ _
  have hhd_len : hd.length = min MAX_OVERLAP_CHARS c.length := by
    rw [hhd]; exact List.length_take _ _
  have hcond : ∀ j, j ≤ B →
      ((tl.drop (tl.length - j) = hd.take j) ↔
       (t.drop (t.length - j) = c.take j)) := by
    intro j hj
    have h1 : tl.drop (tl.length - j) = t.drop (t.length - j) := by
      have hd2 : (List.drop (t.length - MAX_OVERLAP_CHARS) t).length =
          t.length - (t.length - MAX_OVERLAP_CHARS) := List.length_drop _ _
      conv_lhs => rw [htl]
      rw [List.drop_drop]
      have harith : t.length - MAX_OVERLAP_CHARS +
          ((List.drop (t.length - MAX_OVERLAP_CHARS) t).length - j) =
          t.length - j := by omega
      rw [harith]
    have h2 : hd.take j = c.take j := by
      rw [hhd, List.take_take]
      congr 1
      omega
    rw [h1, h2]
  have hbound : ∀ j, IsOverlapLen t c j → j ≤ B := by
    intro j hov
    obtain ⟨hjM, hjt, hjc, _⟩ := hov
    omega
  constructor
  · intro h0
    have hkB : k ≤ B := by rw [hk]; exact findOverlapFrom_le tl hd B
    have hne : findOverlapFrom tl hd B ≠ 0 := by rw [← hk]; exact h0
    have hmatch := findOverlapFrom_pos tl hd B hne
    rw [← hk] at hmatch
    refine ⟨by omega, by omega, by omega, (hcond k hkB).mp hmatch⟩
  · intro j h1 hov
    by_contra hgt
    push_neg at hgt
    have hjB : j ≤ B := hbound j hov
    exact findOverlapFrom_max tl hd B j (by omega) hjB
      ((hcond j hjB).mpr hov.2.2.2)

lemma overlapOf_core (t c : List Char) :
    (overlapOf t c ≠ 0 → IsOverlapLen t c (overlapOf t c)) ∧
    ∀ j, 1 ≤ j → IsOverlapLen t c j → j ≤ overlapOf t c := by
  have hk : overlapOf t c =
      findOverlapFrom ((t.reverse.take MAX_OVERLAP_CHARS).reverse)
        (c.take MAX_OVERLAP_CHARS)
        (min ((t.reverse.take MAX_OVERLAP_CHARS).reverse).length
          (c.take MAX_OVERLAP_CHARS).length) := rfl
  exact overlap_core t c ((t.reverse.take MAX_OVERLAP_CHARS).reverse)
    (c.take MAX_OVERLAP_CHARS) _ (overlapOf t c)
    (reverse_take_reverse t _) rfl rfl hk

theorem spec_C1_helper (t c : List Char) (hc : c ≠ []) : C1Prop t c := by
  unfold C1Prop
  by_cases ht : t = []
  · subst ht
    simp only [appendChunkWithOverlap, if_neg hc, if_pos rfl]
    refine ⟨by simp, by simp, fun h => absurd rfl h, ?_⟩
    intro j h1 hov
    have := hov.2.1
    simp at this
    omega
  · obtain ⟨hpos, hmax⟩ := overlapOf_core t c
    simp only [appendChunkWithOverlap, if_neg hc, if_neg ht]
    set K := overlapOf t c with hKdef
    by_cases h0 : K = 0
    · rw [if_pos h0]
      refine ⟨by simp, by simp, fun h => absurd rfl h, ?_⟩
      intro j h1 hov
      have := hmax j h1 hov
      omega
    · rw [if_neg h0]
      refine ⟨rfl, rfl, ?_, ?_⟩
      · exact hpos
      · exact hmax

/-- C1: for every transcript and non-empty chunk, `append_chunk_with_overlap`
appends exactly the chunk characters past the overlap and returns the overlap
length `k` together with that appended suffix, where `k` is the largest
`k ≤ min (4096, transcript length, chunk length)` such that the last `k`
characters of the transcript equal the first `k` characters of the chunk;
when no such `k ≥ 1` exists the whole chunk is appended and `k = 0`. -/
theorem spec_C1 (t c : List Char) (hc : c ≠ []) : C1Prop t c :=
  spec_C1_helper t c hc

/-- Witness for C1 at transcript `"abcd"` and chunk `"cdef"`. -/
theorem spec_C1_witness :
    "cdef".toList ≠ [] ∧ C1Prop "abcd".toList "cdef".toList :=
  ⟨by decide, spec_C1 "abcd".toList "cdef".toList (by decide)⟩

/-! ## Live Emission Gate (`LiveEmitGate`, `action_prefix_state`) -/

/-- `LiveEmitMode` from commands.rs. -/
inductive LiveEmitMode
  | unknown
  | emit
  | suppress
  deriving DecidableEq, Repr

/-- `LiveEmitGate` from commands.rs: mode plus probe buffer. -/
structure LiveEmitGate where
  mode : LiveEmitMode
  probe : List Char
  deriving DecidableEq, Repr

/-- The monitored directive marker `"ACTION:"`. -/
def ACTION_MARKER : List Char := "ACTION:".toList

/-- Embedding of `action_prefix_state`: trims leading whitespace, takes at
most 7 chars ASCII-uppercased, and reports (is possible prefix of
`"ACTION:"`, is exactly `"ACTION:"`). -/
def actionPrefixState (text : List Char) : Bool × Bool :=
  let trimmed := trimStart text
  if trimmed = [] then (false, false)
  else
    let hd := (trimmed.take 7).map toAsciiUpper
    (hd.isPrefixOf ACTION_MARKER, hd = ACTION_MARKER)

/-- `LiveEmitGate::new`. -/
def gateNew : LiveEmitGate := ⟨.unknown, []⟩

/-- Embedding of `LiveEmitGate::push`: returns the updated gate and the
text emitted to the live session (empty when nothing is emitted). -/
def pushGate (g : LiveEmitGate) (text : List Char) : LiveEmitGate × List Char :=
  if text = [] then (g, [])
  else
    match g.mode with
    | .emit => (g, text)
    | .suppress => (g, [])
    | .unknown =>
      let probe := g.probe ++ text
      let st := actionPrefixState probe
      if st.2 then (⟨.suppress, []⟩, [])
      else if st.1 then (⟨.unknown, probe⟩, [])
      else (⟨.emit, []⟩, probe)

/-- Embedding of `LiveEmitGate::finalize`: returns the drained gate and the
text emitted (empty when the probe is dropped). -/
def finalizeGate (g : LiveEmitGate) : LiveEmitGate × List Char :=
  if g.probe = [] then (g, [])
  else
    let st := actionPrefixState g.probe
    if g.mode ≠ LiveEmitMode.suppress && !st.2 then (⟨g.mode, []⟩, g.probe)
    else (⟨g.mode, []⟩, [])

/-- Push a sequence of fragments through the gate, collecting emissions. -/
def pushAll (g : LiveEmitGate) : List (List Char) → LiveEmitGate × List Char
  | [] => (g, [])
  | f :: fs =>
    let r := pushGate g f
    let rest := pushAll r.1 fs
    (rest.1, r.2 ++ rest.2)

/-- A full gate run: push every fragment, then finalize once; the
concatenation of everything emitted. -/
def gateRun (frags : List (List Char)) : List Char :=
  let r := pushAll gateNew frags
  r.2 ++ (finalizeGate r.1).2

example : gateRun ["Hello".toList] = "Hello".toList := by decide
example : gateRun ["ACT".toList, "ION: x".toList] = [] := by decide
example : gateRun ["ACT".toList, "UAL x".toList] = "ACTUAL x".toList := by decide
example : gateRun ["AC".toList] = "AC".toList := by decide

/-- Invariant of the probe buffer while the gate is in `Unknown`: it is
empty, or `action_prefix_state` reports a possible-but-not-full marker
match on it. -/
def ProbeInv (p : List Char) : Prop :=
  p = [] ∨ ((actionPrefixState p).1 = true ∧ (actionPrefixState p).2 = false)

lemma pushGate_unknown (p f : List Char) (hf : f ≠ []) :
    pushGate ⟨.unknown, p⟩ f =
      if (actionPrefixState (p ++ f)).2 then (⟨.suppress, []⟩, [])
      else if (actionPrefixState (p ++ f)).1 then (⟨.unknown, p ++ f⟩, [])
      else (⟨.emit, []⟩, p ++ f) := by
  unfold pushGate
  rw [if_neg hf]

lemma pushAll_emit (q : List Char) (frags : List (List Char)) :
    pushAll ⟨.emit, q⟩ frags = (⟨.emit, q⟩, frags.flatten) := by
  induction frags with
  | nil => rfl
  | cons f fs ih =>
    by_cases hf : f = []
    · subst hf
      simp only [pushAll]
      rw [show pushGate ⟨.emit, q⟩ [] = (⟨.emit, q⟩, []) from rfl]
      simp [ih]
    · simp only [pushAll]
      rw [show pushGate ⟨.emit, q⟩ f = (⟨.emit, q⟩, f) from by
        unfold pushGate; rw [if_neg hf]]
      simp [ih]

lemma pushAll_suppress (q : List Char) (frags : List (List Char)) :
    pushAll ⟨.suppress, q⟩ frags = (⟨.suppress, q⟩, []) := by
  induction frags with
  | nil => rfl
  | cons f fs ih =>
    by_cases hf : f = []
    · subst hf
      simp only [pushAll]
      rw [show pushGate ⟨.suppress, q⟩ [] = (⟨.suppress, q⟩, []) from rfl]
      simp [ih]
    · simp only [pushAll]
      rw [show pushGate ⟨.suppress, q⟩ f = (⟨.suppress, q⟩, []) from by
        unfold pushGate; rw [if_neg hf]]
      simp [ih]

lemma pushAll_unknown_inv (frags : List (List Char)) :
    ∀ p, ProbeInv p →
    (let r := pushAll ⟨.unknown, p⟩ frags
     (r.1.mode = .unknown ∧ r.2 = [] ∧ r.1.probe = p ++ frags.flatten ∧
        ProbeInv r.1.probe) ∨
     (r.1.mode = .emit ∧ r.2 = p ++ frags.flatten ∧ r.1.probe = []) ∨
     (r.1.mode = .suppress ∧ r.2 = [] ∧ r.1.probe = [])) := by
  induction frags with
  | nil =>
    intro p hp
    left
    exact ⟨rfl, rfl, by simp [pushAll], hp⟩
  | cons f fs ih =>
    intro p hp
    by_cases hf : f = []
    · subst hf
      simp only [pushAll]
      rw [show pushGate ⟨.unknown, p⟩ [] = (⟨.unknown, p⟩, []) from rfl]
      have := ih p hp
      simp only at this ⊢
      rcases this with ⟨h1, h2, h3, h4⟩ | ⟨h1, h2, h3⟩ | ⟨h1, h2, h3⟩
      · left; refine ⟨h1, by simp [h2], by simp [h3], h4⟩
      · right; left; exact ⟨h1, by simp [h2], h3⟩
      · right; right; exact ⟨h1, by simp [h2], h3⟩
    · simp only [pushAll]
      rw [pushGate_unknown p f hf]
      by_cases hfull : (actionPrefixState (p ++ f)).2 = true
      · rw [if_pos hfull]
        rw [pushAll_suppress]
        right; right
        exact ⟨rfl, by simp, rfl⟩
      · rw [if_neg hfull]
        by_cases hposs : (actionPrefixState (p ++ f)).1 = true
        · rw [if_pos hposs]
          have := ih (p ++ f) (Or.inr ⟨hposs, by simpa using hfull⟩)
          simp only at this ⊢
          rcases this with ⟨h1, h2, h3, h4⟩ | ⟨h1, h2, h3⟩ | ⟨h1, h2, h3⟩
          · left
            refine ⟨h1, by simp [h2], by simp [h3], h4⟩
          · right; left
            exact ⟨h1, by simp [h2], h3⟩
          · right; right
            exact ⟨h1, by simp [h2], h3⟩
        · rw [if_neg hposs]
          rw [pushAll_emit]
          right; left
          exact ⟨rfl, by simp, rfl⟩

lemma probeInv_trim_le (p : List Char) (h : ProbeInv p) :
    (trimStart p).length ≤ ACTION_MARKER.length := by
  rcases h with h | ⟨h1, h2⟩
  · subst h
    simp [trimStart]
  · by_cases htr : trimStart p = []
    · simp [htr]
    · by_contra hlen
      push_neg at hlen
      have hmark : ACTION_MARKER.length = 7 := by decide
      have hdlen : (((trimStart p).take 7).map toAsciiUpper).length = 7 := by
        rw [List.length_map, List.length_take]
        omega
      simp only [actionPrefixState, if_neg htr] at h1 h2
      have hpre : ((trimStart p).take 7).map toAsciiUpper <+: ACTION_MARKER := by
        exact List.isPrefixOf_iff_prefix.mp h1
      have heq : ((trimStart p).take 7).map toAsciiUpper = ACTION_MARKER :=
        List.IsPrefix.eq_of_length hpre (by omega)
      rw [heq] at h2
      simp at h2

/-- Counterexample to C4 as stated: with the single-fragment input
`"ACTION:x"` the gate emits nothing at all — neither the input with the
marker removed (`"x"`) nor the input verbatim.  A detected marker
suppresses the entire message, not just the marker. -/
theorem spec_C4_counterexample :
    gateRun [("ACTION:x").toList] = [] ∧
    gateRun [("ACTION:x").toList] ≠
      ("ACTION:x").toList.drop ACTION_MARKER.length ∧
    gateRun [("ACTION:x").toList] ≠ ("ACTION:x").toList := by
  decide

/-- Terminal behaviour of `finalize` on an empty probe. -/
lemma finalizeGate_empty (g : LiveEmitGate) (h : g.probe = []) :
    finalizeGate g = (g, []) := by
  unfold finalizeGate
  rw [if_pos h]

/-- Terminal behaviour of `finalize` when a non-suppressed, non-full probe
remains: it is flushed. -/
lemma finalizeGate_flush (g : LiveEmitGate) (hne : g.probe ≠ [])
    (hmode : g.mode ≠ LiveEmitMode.suppress)
    (hfull : (actionPrefixState g.probe).2 = false) :
    finalizeGate g = (⟨g.mode, []⟩, g.probe) := by
  unfold finalizeGate
  rw [if_neg hne]
  simp [hmode, hfull]

/-- C4 amended: for every way of splitting text into fragments pushed
through the gate (followed by one finalize), the concatenation of all
emitted fragments equals the input verbatim when the gate never entered
Suppressing, and the empty string when it did (the whole message is
suppressed, not just the marker). -/
theorem spec_C4_amended (frags : List (List Char)) :
    gateRun frags =
      if (pushAll gateNew frags).1.mode = LiveEmitMode.suppress then []
      else frags.flatten := by
  have hrun : gateRun frags =
      (pushAll gateNew frags).2 ++ (finalizeGate (pushAll gateNew frags).1).2 :=
    rfl
  have hinv := pushAll_unknown_inv frags [] (Or.inl rfl)
  simp only at hinv
  have hgn : gateNew = (⟨LiveEmitMode.unknown, []⟩ : LiveEmitGate) := rfl
  rw [hrun, hgn]
  rcases hinv with ⟨h1, h2, h3, h4⟩ | ⟨h1, h2, h3⟩ | ⟨h1, h2, h3⟩
  · rw [if_neg (by rw [h1]; simp)]
    simp only [List.nil_append] at h3
    rcases h4 with hp | ⟨hposs, hfull⟩
    · have hfl : frags.flatten = [] := by rw [← h3, hp]
      rw [finalizeGate_empty _ hp, h2]
      simp [hfl]
    · have hne : (pushAll ⟨LiveEmitMode.unknown, []⟩ frags).1.probe ≠ [] := by
        intro he
        rw [he] at hposs
        simp [actionPrefixState, trimStart] at hposs
      rw [finalizeGate_flush _ hne (by rw [h1]; simp) hfull, h2]
      simp [h3]
  · rw [if_neg (by rw [h1]; simp)]
    rw [finalizeGate_empty _ h3, h2]
    simp
  · rw [if_pos h1, finalizeGate_empty _ h3, h2]
    simp

/-- Counterexample to C5 as stated: a single push of ten spaces followed by
`"A"` leaves the Unknown-mode probe buffer holding all 11 characters,
exceeding the marker length 7. -/
theorem spec_C5_counterexample :
    ((pushAll gateNew [("          A").toList]).1.probe).length = 11 ∧
    ACTION_MARKER.length = 7 := by
  decide

/-- C5 amended: after any sequence of pushes, the length of the probe
buffer *after removing leading whitespace* never exceeds the marker length
(7 for `"ACTION:"`); the untrimmed probe may exceed it by any amount of
leading whitespace. -/
theorem spec_C5_amended (frags : List (List Char)) :
    (trimStart (pushAll gateNew frags).1.probe).length ≤
      ACTION_MARKER.length := by
  have hinv := pushAll_unknown_inv frags [] (Or.inl rfl)
  simp only at hinv
  unfold gateNew
  rcases hinv with ⟨_, _, _, h4⟩ | ⟨_, _, h3⟩ | ⟨_, _, h3⟩
  · exact probeInv_trim_le _ h4
  · rw [h3]; simp [trimStart]
  · rw [h3]; simp [trimStart]

/-- C9: any first push into a fresh gate whose leading-whitespace-trimmed
form begins (under ASCII case folding) with `"ACTION:"` drives the gate to
Suppressing and emits nothing. -/
theorem spec_C9 (text : List Char)
    (h : ((trimStart text).take 7).map toAsciiUpper = ACTION_MARKER) :
    pushGate gateNew text = (⟨LiveEmitMode.suppress, []⟩, []) := by
  have htext : text ≠ [] := by
    intro he
    subst he
    exact absurd h (by decide)
  have htr : trimStart text ≠ [] := by
    intro he
    rw [he] at h
    exact absurd h (by decide)
  have hfull : (actionPrefixState text).2 = true := by
    simp only [actionPrefixState, if_neg htr]
    simp [h]
  unfold gateNew pushGate
  rw [if_neg htext]
  simp only [List.nil_append]
  rw [if_pos hfull]

/-- Witness for C9 at the concrete first push `"  acTion: delete"`. -/
theorem spec_C9_witness :
    ((trimStart ("  acTion: delete").toList).take 7).map toAsciiUpper =
      ACTION_MARKER ∧
    pushGate gateNew ("  acTion: delete").toList =
      (⟨LiveEmitMode.suppress, []⟩, []) :=
  ⟨by decide, spec_C9 ("  acTion: delete").toList (by decide)⟩

/-! ## Continuation controller (`call_openai_unbounded`,
`call_anthropic_unbounded`)

The two controller functions share their round loop verbatim except for
the provider's length-capped completion-reason string (`"length"` for the
OpenAI-compatible schema, `"max_tokens"` for Anthropic), so the loop is
embedded once, parameterized by that string.  A provider round is
abstracted as the pair (text chunk, optional completion reason) the round
yields — transport, SSE decoding and the in-round retry fallbacks produce
that pair in the source; the dedup step mirrors the batch transport path,
where `append_chunk_with_overlap` runs on the whole round chunk. -/

/-- `MAX_CONTINUATIONS` from commands.rs (both provider variants). -/
def MAX_CONTINUATIONS : Nat := 64

/-- The fixed truncation notice appended on round exhaustion. -/
def TRUNCATION_NOTICE : List Char :=
  "\n\n[output may be truncated after repeated continuations]".toList

/-- The OpenAI-compatible length-capped finish reason. -/
def OPENAI_LENGTH_REASON : List Char := "length".toList

/-- The Anthropic length-capped stop reason. -/
def ANTHROPIC_LENGTH_REASON : List Char := "max_tokens".toList

/-- The `for round in 0..=MAX_CONTINUATIONS` loop of the unbounded calls:
dedup-append the round chunk, stop unless the reason is the length-capped
value, append the truncation notice at the ceiling.  `fuel` counts the
remaining loop iterations (`MAX_CONTINUATIONS + 1 - round` at entry). -/
def runUnboundedAux (cap : List Char)
    (rounds : Nat → List Char × Option (List Char)) :
    Nat → Nat → List Char → List Char
  | _, 0, full => full
  | round, fuel + 1, full =>
    if (rounds round).2 ≠ some cap then
      (appendChunkWithOverlap full (rounds round).1).1
    else if round = MAX_CONTINUATIONS then
      (appendChunkWithOverlap full (rounds round).1).1 ++ TRUNCATION_NOTICE
    else
      runUnboundedAux cap rounds (round + 1) fuel
        (appendChunkWithOverlap full (rounds round).1).1

/-- Round loop of `call_openai_unbounded` over an abstract provider. -/
def callOpenaiUnbounded (rounds : Nat → List Char × Option (List Char)) :
    List Char :=
  runUnboundedAux OPENAI_LENGTH_REASON rounds 0 (MAX_CONTINUATIONS + 1) []

/-- Round loop of `call_anthropic_unbounded` over an abstract provider. -/
def callAnthropicUnbounded (rounds : Nat → List Char × Option (List Char)) :
    List Char :=
  runUnboundedAux ANTHROPIC_LENGTH_REASON rounds 0 (MAX_CONTINUATIONS + 1) []

/-- Number of provider rounds the loop consumes. -/
def roundsUsedAux (cap : List Char)
    (rounds : Nat → List Char × Option (List Char)) : Nat → Nat → Nat
  | _, 0 => 0
  | round, fuel + 1 =>
    if (rounds round).2 ≠ some cap then 1
    else if round = MAX_CONTINUATIONS then 1
    else 1 + roundsUsedAux cap rounds (round + 1) fuel

/-- Rounds consumed by the OpenAI-variant loop. -/
def openaiRoundsUsed (rounds : Nat → List Char × Option (List Char)) : Nat :=
  roundsUsedAux OPENAI_LENGTH_REASON rounds 0 (MAX_CONTINUATIONS + 1)

/-- Rounds consumed by the Anthropic-variant loop. -/
def anthropicRoundsUsed (rounds : Nat → List Char × Option (List Char)) :
    Nat :=
  roundsUsedAux ANTHROPIC_LENGTH_REASON rounds 0 (MAX_CONTINUATIONS + 1)

/-- The per-round unique (deduplicated) text of the first `fuel` rounds
starting at `round` with transcript `full` — the specification's
"each round's unique text". -/
def uniquePiecesAux (rounds : Nat → List Char × Option (List Char)) :
    Nat → Nat → List Char → List (List Char)
  | _, 0, _ => []
  | round, fuel + 1, full =>
    (appendChunkWithOverlap full (rounds round).1).2.2 ::
      uniquePiecesAux rounds (round + 1) fuel
        (appendChunkWithOverlap full (rounds round).1).1

/-- Unique texts of the first `n` rounds of a request. -/
def uniquePieces (rounds : Nat → List Char × Option (List Char)) (n : Nat) :
    List (List Char) :=
  uniquePiecesAux rounds 0 n []

lemma appendChunk_fst (t c : List Char) :
    (appendChunkWithOverlap t c).1 = t ++ (appendChunkWithOverlap t c).2.2 := by
  unfold appendChunkWithOverlap
  by_cases h1 : c = []
  · simp [h1]
  · by_cases h2 : t = []
    · simp [h1, h2]
    · by_cases h3 : overlapOf t c = 0 <;> simp [h1, h2, h3]

lemma runUnbounded_stop (cap : List Char)
    (rounds : Nat → List Char × Option (List Char)) :
    ∀ m round fuel full,
      round + m ≤ MAX_CONTINUATIONS →
      m < fuel →
      (∀ i, round ≤ i → i < round + m → (rounds i).2 = some cap) →
      (rounds (round + m)).2 ≠ some cap →
      runUnboundedAux cap rounds round fuel full =
        full ++ (uniquePiecesAux rounds round (m + 1) full).flatten ∧
      roundsUsedAux cap rounds round fuel = m + 1 := by
  intro m
  induction m with
  | zero =>
    intro round fuel full hle hfuel hcap hstop
    obtain ⟨f, rfl⟩ : ∃ f, fuel = f + 1 := ⟨fuel - 1, by omega⟩
    simp only [Nat.add_zero] at hstop
    rw [runUnboundedAux, if_pos hstop, roundsUsedAux, if_pos hstop]
    refine ⟨?_, rfl⟩
    rw [uniquePiecesAux, uniquePiecesAux]
    simp [appendChunk_fst]
  | succ m ih =>
    intro round fuel full hle hfuel hcap hstop
    obtain ⟨f, rfl⟩ : ∃ f, fuel = f + 1 := ⟨fuel - 1, by omega⟩
    have hcap0 : (rounds round).2 = some cap :=
      hcap round (Nat.le_refl _) (by omega)
    have hnstop : ¬ (rounds round).2 ≠ some cap := by simp [hcap0]
    have hnmax : round ≠ MAX_CONTINUATIONS := by omega
    rw [runUnboundedAux, if_neg hnstop, if_neg hnmax,
      roundsUsedAux, if_neg hnstop, if_neg hnmax]
    have hih := ih (round + 1) f
      ((appendChunkWithOverlap full (rounds round).1).1)
      (by omega) (by omega)
      (fun i hi1 hi2 => hcap i (by omega) (by omega))
      (by
        have : round + 1 + m = round + (m + 1) := by omega
        rw [this]
        exact hstop)
    refine ⟨?_, by rw [hih.2]; omega⟩
    rw [hih.1]
    conv_rhs => rw [uniquePiecesAux]
    simp only [List.flatten_cons]
    rw [appendChunk_fst full (rounds round).1]
    simp [List.append_assoc]

lemma runUnbounded_exhaust (cap : List Char)
    (rounds : Nat → List Char × Option (List Char)) :
    ∀ fuel round full,
      fuel = MAX_CONTINUATIONS + 1 - round →
      round ≤ MAX_CONTINUATIONS →
      (∀ i, round ≤ i → i ≤ MAX_CONTINUATIONS → (rounds i).2 = some cap) →
      runUnboundedAux cap rounds round fuel full =
        full ++ (uniquePiecesAux rounds round fuel full).flatten ++
          TRUNCATION_NOTICE ∧
      roundsUsedAux cap rounds round fuel = fuel := by
  intro fuel
  induction fuel with
  | zero =>
    intro round full hfuel hle hcap
    omega
  | succ f ih =>
    intro round full hfuel hle hcap
    have hcap0 : (rounds round).2 = some cap :=
      hcap round (Nat.le_refl _) hle
    have hnstop : ¬ (rounds round).2 ≠ some cap := by simp [hcap0]
    by_cases hmax : round = MAX_CONTINUATIONS
    · have hf0 : f = 0 := by omega
      subst hf0
      rw [runUnboundedAux, if_neg hnstop, if_pos hmax,
        roundsUsedAux, if_neg hnstop, if_pos hmax]
      refine ⟨?_, rfl⟩
      rw [uniquePiecesAux, uniquePiecesAux]
      simp [appendChunk_fst]
    · rw [runUnboundedAux, if_neg hnstop, if_neg hmax,
        roundsUsedAux, if_neg hnstop, if_neg hmax]
      have hih := ih (round + 1)
        ((appendChunkWithOverlap full (rounds round).1).1)
        (by omega) (by omega)
        (fun i hi1 hi2 => hcap i (by omega) hi2)
      refine ⟨?_, by rw [hih.2]; omega⟩
      rw [hih.1]
      conv_rhs => rw [uniquePiecesAux]
      simp only [List.flatten_cons]
      rw [appendChunk_fst full (rounds round).1]
      simp [List.append_assoc]

/-- C2: each provider variant issues a further continuation round exactly
when the round's completion reason equals its length-capped value
(`"length"` for OpenAI-compatible, `"max_tokens"` for Anthropic); on any
other reason — including an absent one — the request ends after that round
and returns the accumulated transcript, which equals the concatenation of
each performed round's unique text. -/
theorem spec_C2 (ro ra : Nat → List Char × Option (List Char)) (no na : Nat)
    (hno : no ≤ MAX_CONTINUATIONS) (hna : na ≤ MAX_CONTINUATIONS)
    (hro : ∀ i, i < no → (ro i).2 = some OPENAI_LENGTH_REASON)
    (hroS : (ro no).2 ≠ some OPENAI_LENGTH_REASON)
    (hra : ∀ i, i < na → (ra i).2 = some ANTHROPIC_LENGTH_REASON)
    (hraS : (ra na).2 ≠ some ANTHROPIC_LENGTH_REASON) :
    callOpenaiUnbounded ro = (uniquePieces ro (no + 1)).flatten ∧
    openaiRoundsUsed ro = no + 1 ∧
    callAnthropicUnbounded ra = (uniquePieces ra (na + 1)).flatten ∧
    anthropicRoundsUsed ra = na + 1 := by
  have h1 := runUnbounded_stop OPENAI_LENGTH_REASON ro no 0
    (MAX_CONTINUATIONS + 1) [] (by omega) (by omega)
    (fun i hi1 hi2 => hro i (by omega)) (by simpa using hroS)
  have h2 := runUnbounded_stop ANTHROPIC_LENGTH_REASON ra na 0
    (MAX_CONTINUATIONS + 1) [] (by omega) (by omega)
    (fun i hi1 hi2 => hra i (by omega)) (by simpa using hraS)
  refine ⟨?_, h1.2, ?_, h2.2⟩
  · rw [show callOpenaiUnbounded ro =
      runUnboundedAux OPENAI_LENGTH_REASON ro 0 (MAX_CONTINUATIONS + 1) []
      from rfl, h1.1]
    simp [uniquePieces]
  · rw [show callAnthropicUnbounded ra =
      runUnboundedAux ANTHROPIC_LENGTH_REASON ra 0 (MAX_CONTINUATIONS + 1) []
      from rfl, h2.1]
    simp [uniquePieces]

/-- Provider oracle of the C2 witness, OpenAI variant: length-capped for
rounds 0–4, `"stop"` on round 5 (the spec's six-round scenario). -/
def wOpenaiRounds : Nat → List Char × Option (List Char) := fun j =>
  ("ab".toList, if j < 5 then some OPENAI_LENGTH_REASON
                else some ("stop".toList))

/-- Provider oracle of the C2 witness, Anthropic variant. -/
def wAnthropicRounds : Nat → List Char × Option (List Char) := fun j =>
  ("cd".toList, if j < 5 then some ANTHROPIC_LENGTH_REASON
                else some ("end_turn".toList))

/-- Witness for C2: six rounds are performed and the transcript is the
concatenation of the six rounds' unique texts. -/
theorem spec_C2_witness :
    5 ≤ MAX_CONTINUATIONS ∧
    (∀ i, i < 5 → (wOpenaiRounds i).2 = some OPENAI_LENGTH_REASON) ∧
    (wOpenaiRounds 5).2 ≠ some OPENAI_LENGTH_REASON ∧
    (∀ i, i < 5 → (wAnthropicRounds i).2 = some ANTHROPIC_LENGTH_REASON) ∧
    (wAnthropicRounds 5).2 ≠ some ANTHROPIC_LENGTH_REASON ∧
    (callOpenaiUnbounded wOpenaiRounds =
        (uniquePieces wOpenaiRounds 6).flatten ∧
      openaiRoundsUsed wOpenaiRounds = 6 ∧
      callAnthropicUnbounded wAnthropicRounds =
        (uniquePieces wAnthropicRounds 6).flatten ∧
      anthropicRoundsUsed wAnthropicRounds = 6) :=
  ⟨by decide, by decide, by decide, by decide, by decide,
   spec_C2 wOpenaiRounds wAnthropicRounds 5 5 (by decide) (by decide)
     (by decide) (by decide) (by decide) (by decide)⟩

/-- C3: when every round is length-capped, each provider variant performs
exactly `MAX_CONTINUATIONS + 1 = 65` rounds (the fixed round ceiling) and
returns the accumulated transcript with the fixed truncation notice
appended, so the result ends with the notice. -/
theorem spec_C3 (ro ra : Nat → List Char × Option (List Char))
    (hro : ∀ i, i ≤ MAX_CONTINUATIONS →
      (ro i).2 = some OPENAI_LENGTH_REASON)
    (hra : ∀ i, i ≤ MAX_CONTINUATIONS →
      (ra i).2 = some ANTHROPIC_LENGTH_REASON) :
    callOpenaiUnbounded ro =
      (uniquePieces ro (MAX_CONTINUATIONS + 1)).flatten ++
        TRUNCATION_NOTICE ∧
    openaiRoundsUsed ro = MAX_CONTINUATIONS + 1 ∧
    TRUNCATION_NOTICE <:+ callOpenaiUnbounded ro ∧
    callAnthropicUnbounded ra =
      (uniquePieces ra (MAX_CONTINUATIONS + 1)).flatten ++
        TRUNCATION_NOTICE ∧
    anthropicRoundsUsed ra = MAX_CONTINUATIONS + 1 ∧
    TRUNCATION_NOTICE <:+ callAnthropicUnbounded ra := by
  have h1 := runUnbounded_exhaust OPENAI_LENGTH_REASON ro
    (MAX_CONTINUATIONS + 1) 0 [] (by omega) (by omega)
    (fun i hi1 hi2 => hro i hi2)
  have h2 := runUnbounded_exhaust ANTHROPIC_LENGTH_REASON ra
    (MAX_CONTINUATIONS + 1) 0 [] (by omega) (by omega)
    (fun i hi1 hi2 => hra i hi2)
  have e1 : callOpenaiUnbounded ro =
      (uniquePieces ro (MAX_CONTINUATIONS + 1)).flatten ++
        TRUNCATION_NOTICE := by
    rw [show callOpenaiUnbounded ro =
      runUnboundedAux OPENAI_LENGTH_REASON ro 0 (MAX_CONTINUATIONS + 1) []
      from rfl, h1.1]
    simp [uniquePieces]
  have e2 : callAnthropicUnbounded ra =
      (uniquePieces ra (MAX_CONTINUATIONS + 1)).flatten ++
        TRUNCATION_NOTICE := by
    rw [show callAnthropicUnbounded ra =
      runUnboundedAux ANTHROPIC_LENGTH_REASON ra 0 (MAX_CONTINUATIONS + 1) []
      from rfl, h2.1]
    simp [uniquePieces]
  exact ⟨e1, h1.2, ⟨_, e1.symm⟩, e2, h2.2, ⟨_, e2.symm⟩⟩

/-- Provider oracle of the C3 witness: always length-capped. -/
def wOpenaiCapRounds : Nat → List Char × Option (List Char) := fun _ =>
  ("ab".toList, some OPENAI_LENGTH_REASON)

/-- Anthropic-variant provider oracle of the C3 witness. -/
def wAnthropicCapRounds : Nat → List Char × Option (List Char) := fun _ =>
  ("cd".toList, some ANTHROPIC_LENGTH_REASON)

/-- Witness for C3 at an always-length-capped provider. -/
theorem spec_C3_witness :
    (∀ i, i ≤ MAX_CONTINUATIONS →
      (wOpenaiCapRounds i).2 = some OPENAI_LENGTH_REASON) ∧
    (∀ i, i ≤ MAX_CONTINUATIONS →
      (wAnthropicCapRounds i).2 = some ANTHROPIC_LENGTH_REASON) ∧
    (openaiRoundsUsed wOpenaiCapRounds = MAX_CONTINUATIONS + 1 ∧
      TRUNCATION_NOTICE <:+ callOpenaiUnbounded wOpenaiCapRounds ∧
      anthropicRoundsUsed wAnthropicCapRounds = MAX_CONTINUATIONS + 1 ∧
      TRUNCATION_NOTICE <:+ callAnthropicUnbounded wAnthropicCapRounds) :=
  ⟨by decide, by decide, by
    have h := spec_C3 wOpenaiCapRounds wAnthropicCapRounds (by decide)
      (by decide)
    exact ⟨h.2.1, h.2.2.1, h.2.2.2.2.1, h.2.2.2.2.2⟩⟩

/-! ## Credential resolution (C7)

Both unbounded calls open with the same credential block: a keyring
lookup (`secrets::get_api_key`), falling back on `Ok(None)` to the
statically configured `cfg.api_key.trim()`, then a fatal error when the
resolved key trims to empty.  The keyring is abstracted as the
already-delivered lookup outcome; the provider network oracle is a
parameter, so "no network request is sent" is expressed as the result
being independent of it. -/

/-- The credential-resolution `match` of both unbounded calls. -/
def resolveApiKey (keyLookup : Except (List Char) (Option (List Char)))
    (cfgApiKey : List Char) : Except (List Char) (List Char) :=
  match keyLookup with
  | .error e => .error ("keyring read failed: ".toList ++ e)
  | .ok (some v) => .ok v
  | .ok none => .ok (trimBoth cfgApiKey)

/-- The fatal empty-credential message of both unbounded calls. -/
def apiKeyMissingMsg (cfgId : List Char) : List Char :=
  "api key not found for provider=".toList ++ cfgId

/-- `call_openai_unbounded` with its credential stage. -/
def callOpenaiWithAuth (keyLookup : Except (List Char) (Option (List Char)))
    (cfgApiKey cfgId : List Char)
    (rounds : Nat → List Char × Option (List Char)) :
    Except (List Char) (List Char) :=
  match resolveApiKey keyLookup cfgApiKey with
  | .error e => .error e
  | .ok k =>
    if trimBoth k = [] then .error (apiKeyMissingMsg cfgId)
    else .ok (callOpenaiUnbounded rounds)

/-- `call_anthropic_unbounded` with its credential stage. -/
def callAnthropicWithAuth
    (keyLookup : Except (List Char) (Option (List Char)))
    (cfgApiKey cfgId : List Char)
    (rounds : Nat → List Char × Option (List Char)) :
    Except (List Char) (List Char) :=
  match resolveApiKey keyLookup cfgApiKey with
  | .error e => .error e
  | .ok k =>
    if trimBoth k = [] then .error (apiKeyMissingMsg cfgId)
    else .ok (callAnthropicUnbounded rounds)

/-- C7: whenever the resolved credential (keyring value, or on a missing
entry the statically configured value) trims to the empty string, both
provider calls fail with the fatal configuration error, and the outcome is
independent of the provider round oracle — no network round is consulted
and no retry happens. -/
theorem spec_C7 (keyLookup : Except (List Char) (Option (List Char)))
    (cfgApiKey cfgId k : List Char)
    (hk : resolveApiKey keyLookup cfgApiKey = .ok k)
    (he : trimBoth k = []) :
    ∀ rounds rounds',
      callOpenaiWithAuth keyLookup cfgApiKey cfgId rounds =
        .error (apiKeyMissingMsg cfgId) ∧
      callAnthropicWithAuth keyLookup cfgApiKey cfgId rounds =
        .error (apiKeyMissingMsg cfgId) ∧
      callOpenaiWithAuth keyLookup cfgApiKey cfgId rounds =
        callOpenaiWithAuth keyLookup cfgApiKey cfgId rounds' ∧
      callAnthropicWithAuth keyLookup cfgApiKey cfgId rounds =
        callAnthropicWithAuth keyLookup cfgApiKey cfgId rounds' := by
  intro rounds rounds'
  unfold callOpenaiWithAuth callAnthropicWithAuth
  rw [hk]
  simp [he]

/-- Inert provider oracle for the C7 witness. -/
def wQuietRounds : Nat → List Char × Option (List Char) := fun _ => ([], none)

/-- A second, different provider oracle for the C7 witness. -/
def wNoisyRounds : Nat → List Char × Option (List Char) := fun _ =>
  ("zz".toList, some ("stop").toList)

/-- Witness for C7: keyring misses and the configured key is whitespace. -/
theorem spec_C7_witness :
    resolveApiKey (.ok none) ("   ").toList = .ok [] ∧
    trimBoth ([] : List Char) = [] ∧
    (callOpenaiWithAuth (.ok none) ("   ").toList ("p1").toList
        wQuietRounds = .error (apiKeyMissingMsg ("p1").toList) ∧
      callAnthropicWithAuth (.ok none) ("   ").toList ("p1").toList
        wQuietRounds = .error (apiKeyMissingMsg ("p1").toList) ∧
      callOpenaiWithAuth (.ok none) ("   ").toList ("p1").toList
        wQuietRounds =
        callOpenaiWithAuth (.ok none) ("   ").toList ("p1").toList
          wNoisyRounds ∧
      callAnthropicWithAuth (.ok none) ("   ").toList ("p1").toList
        wQuietRounds =
        callAnthropicWithAuth (.ok none) ("   ").toList ("p1").toList
          wNoisyRounds) :=
  ⟨rfl, rfl,
   spec_C7 (.ok none) ("   ").toList ("p1").toList [] rfl rfl
     wQuietRounds wNoisyRounds⟩

/-! ## Stream-task registry (C8, C10)

`AppState::ai_stream_tasks` is a mutex-guarded `HashMap<String,
JoinHandle>`.  The map is modelled as an association list with handles as
opaque numbers; `abort` calls are recorded as a list of aborted handles;
window events are recorded as a list.  The mutex is modelled as
uncontended: its only failure mode (lock poisoning after a panicked
thread) is a concurrency phenomenon outside the embedding. -/

/-- A terminal notification emitted with `emit_stream_done`. -/
inductive StreamEvent
  | done (streamId : List Char) (cancelled : Bool)
  deriving DecidableEq, Repr

/-- `HashMap` lookup on the registry model. -/
def lookupTask (tasks : List (List Char × Nat)) (id : List Char) :
    Option Nat :=
  (tasks.find? (fun e => e.1 = id)).map (fun e => e.2)

/-- Removal of an identity from the registry model. -/
def eraseTask (tasks : List (List Char × Nat)) (id : List Char) :
    List (List Char × Nat) :=
  tasks.filter (fun e => e.1 ≠ id)

/-- Number of registry entries under one identity. -/
def countKey (tasks : List (List Char × Nat)) (id : List Char) : Nat :=
  tasks.countP (fun e => e.1 = id)

/-- The registration step of `chat_generate_stream`:
`tasks.insert(stream_id, task)` followed by `prev.abort()` on the
displaced handle.  Returns the new registry and the aborted handles. -/
def registerStreamTask (tasks : List (List Char × Nat)) (id : List Char)
    (handle : Nat) : List (List Char × Nat) × List Nat :=
  ((id, handle) :: eraseTask tasks id,
   match lookupTask tasks id with
   | some prev => [prev]
   | none => [])

/-- Outcome of `chat_cancel_stream`. -/
structure CancelResult where
  tasks : List (List Char × Nat)
  aborted : List Nat
  events : List StreamEvent
  result : Except (List Char) Unit

/-- Embedding of `chat_cancel_stream`: remove the entry, abort it when
present, emit one `ai_stream_done` with `cancelled = true`, return `Ok`. -/
def chatCancelStream (tasks : List (List Char × Nat)) (id : List Char) :
    CancelResult where
  tasks := eraseTask tasks id
  aborted :=
    match lookupTask tasks id with
    | some h => [h]
    | none => []
  events := [StreamEvent.done id true]
  result := .ok ()

/-- The completion tail of the spawned task in `chat_generate_stream`:
`clear_stream_task` then `emit_stream_done(..., false)`. -/
def taskFinish (tasks : List (List Char × Nat)) (id : List Char) :
    List (List Char × Nat) × List StreamEvent :=
  (eraseTask tasks id, [StreamEvent.done id false])

lemma countKey_erase (tasks : List (List Char × Nat)) (id : List Char) :
    countKey (eraseTask tasks id) id = 0 := by
  unfold countKey eraseTask
  rw [List.countP_filter]
  have hzero : (fun (a : List Char × Nat) =>
      decide (a.1 = id) && decide (a.1 ≠ id)) = fun _ => false := by
    funext a
    by_cases h : a.1 = id <;> simp [h]
  rw [hzero]
  exact congrFun List.countP_false tasks

lemma countKey_erase_ne (tasks : List (List Char × Nat)) (id j : List Char)
    (hne : j ≠ id) : countKey (eraseTask tasks id) j = countKey tasks j := by
  unfold countKey eraseTask
  rw [List.countP_filter]
  congr 1
  funext a
  by_cases h : a.1 = j
  · have hid : a.1 ≠ id := by rw [h]; exact hne
    simp only [hid, h]
    simp
    exact hne
  · simp [h]

/-- C8: registering a task under an identity already present aborts
exactly the previously registered handle and replaces it, leaving exactly
one entry for that identity and every other identity untouched; and
cancelling an identity with no registered task succeeds without error and
aborts nothing. -/
theorem spec_C8 (tasks : List (List Char × Nat)) (id : List Char)
    (handle : Nat) :
    lookupTask (registerStreamTask tasks id handle).1 id = some handle ∧
    (∀ prev, lookupTask tasks id = some prev →
      (registerStreamTask tasks id handle).2 = [prev]) ∧
    (lookupTask tasks id = none →
      (registerStreamTask tasks id handle).2 = []) ∧
    countKey (registerStreamTask tasks id handle).1 id = 1 ∧
    (∀ j, j ≠ id →
      countKey (registerStreamTask tasks id handle).1 j = countKey tasks j) ∧
    (lookupTask tasks id = none →
      (chatCancelStream tasks id).result = .ok () ∧
      (chatCancelStream tasks id).aborted = []) := by
  refine ⟨?_, ?_, ?_, ?_, ?_, ?_⟩
  · simp [registerStreamTask, lookupTask]
  · intro prev hprev
    simp [registerStreamTask, hprev]
  · intro hnone
    simp [registerStreamTask, hnone]
  · have h0 := countKey_erase tasks id
    simp [registerStreamTask, countKey] at h0 ⊢
    exact h0
  · intro j hj
    have h1 := countKey_erase_ne tasks id j hj
    have hij : id ≠ j := fun h => hj h.symm
    simp [registerStreamTask, countKey, hij] at h1 ⊢
    exact h1
  · intro hnone
    exact ⟨rfl, by simp [chatCancelStream, hnone]⟩

/-- Witness for C8 on a one-entry registry. -/
theorem spec_C8_witness :
    lookupTask
        (registerStreamTask [(("s1").toList, 5)] ("s1").toList 7).1
        ("s1").toList = some 7 ∧
    lookupTask [(("s1").toList, 5)] ("s1").toList = some 5 ∧
    (registerStreamTask [(("s1").toList, 5)] ("s1").toList 7).2 = [5] ∧
    countKey (registerStreamTask [(("s1").toList, 5)] ("s1").toList 7).1
      ("s1").toList = 1 ∧
    lookupTask ([] : List (List Char × Nat)) ("s2").toList = none ∧
    (chatCancelStream ([] : List (List Char × Nat)) ("s2").toList).result =
      .ok () ∧
    (chatCancelStream ([] : List (List Char × Nat)) ("s2").toList).aborted =
      [] := by
  have h1 := spec_C8 [(("s1").toList, 5)] ("s1").toList 7
  have h2 := spec_C8 ([] : List (List Char × Nat)) ("s2").toList 0
  have h3 := h2.2.2.2.2.2 (by decide)
  exact ⟨h1.1, by decide, h1.2.1 5 (by decide), h1.2.2.2.1, by decide,
    h3.1, h3.2⟩

/-- C10: `chat_cancel_stream` always succeeds and always emits exactly one
terminal done notification with `cancelled = true`, whether or not a task
is registered under the identity; so cancelling an identity whose task
already finished (which removed its own entry and emitted a terminal
`cancelled = false` notification) yields a second terminal notification. -/
theorem spec_C10 (tasks : List (List Char × Nat)) (id : List Char) :
    (chatCancelStream tasks id).result = .ok () ∧
    (chatCancelStream tasks id).events = [StreamEvent.done id true] ∧
    (taskFinish tasks id).2 ++
        (chatCancelStream (taskFinish tasks id).1 id).events =
      [StreamEvent.done id false, StreamEvent.done id true] :=
  ⟨rfl, rfl, rfl⟩

/-! ## SSE frame decoding (C6)

The per-round stream decode loop of both unbounded calls: bytes arrive in
chunks, complete lines are drained with `sse_take_line`, each `data:` line
yields one record whose delta content is dedup-appended and whose
completion reason is recorded.  Decoding of the raw JSON payload of one
`data:` line (`serde_json` plus field extraction — external library code)
is abstracted as a function `parse` from the payload to an optional text
delta and an optional completion reason; under that abstraction the two
providers' per-line handling coincides, and they differ only in the tail:
the OpenAI variant processes a non-empty trimmed remainder as one final
record, the Anthropic variant has no such block. -/

/-- Split a buffer at its first newline (the `buffer.find('\n')` /
`buffer.drain(..=pos)` core of `sse_take_line`). -/
def splitAtNewline : List Char → Option (List Char × List Char)
  | [] => none
  | ch :: rest =>
    if ch = '\n' then some ([], rest)
    else
      match splitAtNewline rest with
      | none => none
      | some p => some (ch :: p.1, p.2)

/-- The `if line.ends_with('\r') { line.pop(); }` step of `sse_take_line`. -/
def stripTrailingCr (l : List Char) : List Char :=
  if l.getLast? = some '\r' then l.dropLast else l

/-- Embedding of `sse_take_line`: pop the first newline-terminated line,
stripping a trailing CR; `none` when no full line is buffered. -/
def sseTakeLine (buf : List Char) : Option (List Char × List Char) :=
  (splitAtNewline buf).map (fun p => (stripTrailingCr p.1, p.2))

/-- State accumulated over one streamed round: the request transcript, the
round's unique text, and the last seen completion reason. -/
structure StreamRoundState where
  fullText : List Char
  roundUnique : List Char
  reason : Option (List Char)
  deriving DecidableEq, Repr

/-- Start-of-round state (transcript shown empty; a non-empty carried
transcript only shifts the dedup window and is not needed for C6). -/
def initRound : StreamRoundState := ⟨[], [], none⟩

/-- Effect of one decoded record: record a completion reason when present;
dedup-append a content delta when present (`append_chunk_with_overlap`
into the transcript, the unique piece onto the round text — appending an
empty unique piece is a no-op, matching the source's emptiness guard). -/
def applyRecord (st : StreamRoundState)
    (rec : Option (List Char) × Option (List Char)) : StreamRoundState :=
  let st1 :=
    match rec.2 with
    | some r => { st with reason := some r }
    | none => st
  match rec.1 with
  | some content =>
    let r := appendChunkWithOverlap st1.fullText content
    { st1 with fullText := r.1, roundUnique := st1.roundUnique ++ r.2.2 }
  | none => st1

/-- The `data:` tag. -/
def DATA_TAG : List Char := "data:".toList

/-- `line.strip_prefix("data:")`. -/
def stripDataTag (l : List Char) : Option (List Char) :=
  if DATA_TAG.isPrefixOf l then some (l.drop DATA_TAG.length) else none

/-- Handling of one drained line in the stream loop of either provider
variant: ignore non-`data:` lines, trim the payload, skip blank and
`[DONE]` payloads, otherwise decode one record and apply it. -/
def processDataLine (parse : List Char → Option (List Char) × Option (List Char))
    (st : StreamRoundState) (line : List Char) : StreamRoundState :=
  match stripDataTag line with
  | none => st
  | some d =>
    let d := trimBoth d
    if d = [] then st
    else if d = "[DONE]".toList then st
    else applyRecord st (parse d)

/-- The `while let Some(line) = sse_take_line(&mut sse_buf)` drain loop;
each extracted line consumes at least one buffered character, so
`buf.length` iterations always suffice, making the recursion structural. -/
def drainLinesFuel (parse : List Char → Option (List Char) × Option (List Char)) :
    Nat → StreamRoundState → List Char → StreamRoundState × List Char
  | 0, st, buf => (st, buf)
  | fuel + 1, st, buf =>
    match sseTakeLine buf with
    | none => (st, buf)
    | some p => drainLinesFuel parse fuel (processDataLine parse st p.1) p.2

/-- Drain every complete line currently buffered. -/
def drainLines (parse : List Char → Option (List Char) × Option (List Char))
    (st : StreamRoundState) (buf : List Char) : StreamRoundState × List Char :=
  drainLinesFuel parse buf.length st buf

/-- One streamed round of `call_openai_unbounded`: drain lines as each
body chunk arrives, then, when a non-blank remainder is left at body end,
process it (trimmed) as one final record. -/
def streamRoundOpenai
    (parse : List Char → Option (List Char) × Option (List Char))
    (chunks : List (List Char)) : StreamRoundState :=
  let r := chunks.foldl
    (fun acc chunk => drainLines parse acc.1 (acc.2 ++ chunk))
    (initRound, [])
  if trimBoth r.2 ≠ [] then processDataLine parse r.1 (trimBoth r.2) else r.1

/-- One streamed round of `call_anthropic_unbounded`: drain lines as each
body chunk arrives; the loop ends with no handling of a leftover partial
line. -/
def streamRoundAnthropic
    (parse : List Char → Option (List Char) × Option (List Char))
    (chunks : List (List Char)) : StreamRoundState :=
  (chunks.foldl
    (fun acc chunk => drainLines parse acc.1 (acc.2 ++ chunk))
    (initRound, [])).1

/-- Reference decomposition of a whole response body: the complete
(newline-terminated) lines in order, and the unterminated remainder. -/
def splitLinesFuel : Nat → List Char → List (List Char) × List Char
  | 0, buf => ([], buf)
  | fuel + 1, buf =>
    match sseTakeLine buf with
    | none => ([], buf)
    | some p =>
      let q := splitLinesFuel fuel p.2
      (p.1 :: q.1, q.2)

/-- All complete lines of a body plus its unterminated remainder. -/
def splitAllLines (buf : List Char) : List (List Char) × List Char :=
  splitLinesFuel buf.length buf

/-- Process a list of already-extracted lines in order. -/
def foldRecords (parse : List Char → Option (List Char) × Option (List Char))
    (st : StreamRoundState) (ls : List (List Char)) : StreamRoundState :=
  ls.foldl (processDataLine parse) st

lemma splitAtNewline_some (buf : List Char) :
    ∀ l r, splitAtNewline buf = some (l, r) →
    buf = l ++ '\n' :: r ∧ '\n' ∉ l := by
  induction buf with
  | nil => intro l r h; exact absurd h (by simp [splitAtNewline])
  | cons ch rest ih =>
    intro l r h
    rw [splitAtNewline] at h
    by_cases hch : ch = '\n'
    · rw [if_pos hch] at h
      obtain ⟨rfl, rfl⟩ : l = [] ∧ r = rest := by
        injection h with h'
        injection h' with h1 h2
        exact ⟨h1.symm, h2.symm⟩
      simp [hch]
    · rw [if_neg hch] at h
      cases hrec : splitAtNewline rest with
      | none => rw [hrec] at h; exact absurd h (by simp)
      | some p =>
        rw [hrec] at h
        obtain ⟨rfl, rfl⟩ : l = ch :: p.1 ∧ r = p.2 := by
          injection h with h'
          injection h' with h1 h2
          exact ⟨h1.symm, h2.symm⟩
        obtain ⟨hb, hn⟩ := ih p.1 p.2 (by rw [hrec])
        refine ⟨by rw [hb]; rfl, ?_⟩
        simp only [List.mem_cons, not_or]
        exact ⟨fun he => hch he.symm, hn⟩

lemma splitAtNewline_append_line (l x : List Char) (hl : '\n' ∉ l) :
    splitAtNewline (l ++ '\n' :: x) = some (l, x) := by
  induction l with
  | nil => simp [splitAtNewline]
  | cons ch cs ih =>
    have hch : ch ≠ '\n' := by
      intro he
      exact hl (by rw [he]; exact List.mem_cons_self _ _)
    have hcs : '\n' ∉ cs := fun h => hl (List.mem_cons_of_mem _ h)
    rw [List.cons_append, splitAtNewline, if_neg hch, ih hcs]

lemma sseTakeLine_some (buf : List Char) (p : List Char × List Char)
    (h : sseTakeLine buf = some p) :
    ∃ l, splitAtNewline buf = some (l, p.2) ∧ p.1 = stripTrailingCr l ∧
      buf = l ++ '\n' :: p.2 ∧ '\n' ∉ l := by
  unfold sseTakeLine at h
  cases hraw : splitAtNewline buf with
  | none => rw [hraw] at h; exact absurd h (by simp)
  | some q =>
    obtain ⟨ql, qr⟩ := q
    rw [hraw] at h
    have h' : some (stripTrailingCr ql, qr) = some p := h
    have hpq : p = (stripTrailingCr ql, qr) := by
      injection h' with h''
      exact h''.symm
    obtain ⟨hb, hn⟩ := splitAtNewline_some buf ql qr (by rw [hraw])
    subst hpq
    exact ⟨ql, rfl, rfl, hb, hn⟩

lemma sseTakeLine_length (buf : List Char) (p : List Char × List Char)
    (h : sseTakeLine buf = some p) : p.2.length < buf.length := by
  obtain ⟨l, _, _, hb, _⟩ := sseTakeLine_some buf p h
  rw [hb]
  simp
  omega

lemma sseTakeLine_nil : sseTakeLine [] = none := rfl

lemma splitLinesFuel_none (buf : List Char) (fuel : Nat)
    (h : sseTakeLine buf = none) : splitLinesFuel fuel buf = ([], buf) := by
  cases fuel with
  | zero => rfl
  | succ f => rw [splitLinesFuel, h]

lemma drainFuel_eq_split
    (parse : List Char → Option (List Char) × Option (List Char)) :
    ∀ fuel st buf,
    drainLinesFuel parse fuel st buf =
      (foldRecords parse st (splitLinesFuel fuel buf).1,
       (splitLinesFuel fuel buf).2) := by
  intro fuel
  induction fuel with
  | zero => intro st buf; rfl
  | succ f ih =>
    intro st buf
    cases hsl : sseTakeLine buf with
    | none => simp only [drainLinesFuel, splitLinesFuel, hsl]; rfl
    | some p => simp only [drainLinesFuel, splitLinesFuel, hsl, ih]; rfl

lemma splitLinesFuel_of_le :
    ∀ f1 f2 buf, buf.length ≤ f1 → buf.length ≤ f2 →
    splitLinesFuel f1 buf = splitLinesFuel f2 buf := by
  intro f1
  induction f1 with
  | zero =>
    intro f2 buf h1 h2
    have : buf = [] := List.length_eq_zero.mp (by omega)
    subst this
    rw [splitLinesFuel_none [] _ sseTakeLine_nil,
      splitLinesFuel_none [] _ sseTakeLine_nil]
  | succ f ih =>
    intro f2 buf h1 h2
    cases hsl : sseTakeLine buf with
    | none => rw [splitLinesFuel_none _ _ hsl, splitLinesFuel_none _ _ hsl]
    | some p =>
      cases f2 with
      | zero =>
        have : buf = [] := List.length_eq_zero.mp (by omega)
        subst this
        rw [sseTakeLine_nil] at hsl
        exact absurd hsl (by simp)
      | succ g =>
        have hlen := sseTakeLine_length buf p hsl
        simp only [splitLinesFuel, hsl]
        rw [ih g p.2 (by omega) (by omega)]

lemma splitLinesFuel_rem_none :
    ∀ fuel buf, buf.length ≤ fuel →
    sseTakeLine (splitLinesFuel fuel buf).2 = none := by
  intro fuel
  induction fuel with
  | zero =>
    intro buf h
    have : buf = [] := List.length_eq_zero.mp (by omega)
    subst this
    exact sseTakeLine_nil
  | succ f ih =>
    intro buf h
    cases hsl : sseTakeLine buf with
    | none => rw [splitLinesFuel_none _ _ hsl]; exact hsl
    | some p =>
      have hlen := sseTakeLine_length buf p hsl
      simp only [splitLinesFuel, hsl]
      exact ih p.2 (by omega)

lemma splitAll_append :
    ∀ n a b, a.length ≤ n →
    splitAllLines (a ++ b) =
      ((splitAllLines a).1 ++
        (splitAllLines ((splitAllLines a).2 ++ b)).1,
       (splitAllLines ((splitAllLines a).2 ++ b)).2) := by
  intro n
  induction n with
  | zero =>
    intro a b h
    have ha : a = [] := List.length_eq_zero.mp (by omega)
    subst ha
    have h0 : splitAllLines ([] : List Char) = ([], []) := rfl
    rw [h0]
    simp
  | succ n ih =>
    intro a b h
    cases hsl : sseTakeLine a with
    | none =>
      have ha : splitAllLines a = ([], a) := splitLinesFuel_none a _ hsl
      rw [ha]
      simp
    | some p =>
      obtain ⟨l, hraw, hstrip, hbuf, hnl⟩ := sseTakeLine_some a p hsl
      have halen : a.length = l.length + 1 + p.2.length := by
        rw [hbuf]
        simp
        omega
      have hab : sseTakeLine (a ++ b) = some (p.1, p.2 ++ b) := by
        unfold sseTakeLine
        rw [hbuf, List.append_assoc, List.cons_append,
          splitAtNewline_append_line l (p.2 ++ b) hnl]
        simp [hstrip]
      have hsa : splitAllLines a =
          (p.1 :: (splitAllLines p.2).1, (splitAllLines p.2).2) := by
        obtain ⟨m, hm⟩ : ∃ m, a.length = m + 1 :=
          ⟨l.length + p.2.length, by omega⟩
        unfold splitAllLines
        rw [hm]
        simp only [splitLinesFuel, hsl]
        rw [splitLinesFuel_of_le m p.2.length p.2 (by omega) (Nat.le_refl _)]
      have hsab : splitAllLines (a ++ b) =
          (p.1 :: (splitAllLines (p.2 ++ b)).1,
           (splitAllLines (p.2 ++ b)).2) := by
        obtain ⟨m, hm⟩ : ∃ m, (a ++ b).length = m + 1 :=
          ⟨l.length + p.2.length + b.length, by simp [halen]; omega⟩
        unfold splitAllLines
        rw [hm]
        simp only [splitLinesFuel, hab]
        rw [splitLinesFuel_of_le m (p.2 ++ b).length (p.2 ++ b)
          (by simp at hm ⊢; omega) (Nat.le_refl _)]
      have hih := ih p.2 b (by omega)
      rw [hsab, hsa, hih]
      simp

lemma foldDrain_eq
    (parse : List Char → Option (List Char) × Option (List Char)) :
    ∀ (chunks : List (List Char)) (st : StreamRoundState) (buf : List Char),
    sseTakeLine buf = none →
    chunks.foldl (fun acc chunk => drainLines parse acc.1 (acc.2 ++ chunk))
        (st, buf) =
      (foldRecords parse st (splitAllLines (buf ++ chunks.flatten)).1,
       (splitAllLines (buf ++ chunks.flatten)).2) := by
  intro chunks
  induction chunks with
  | nil =>
    intro st buf h
    have hb : splitAllLines buf = ([], buf) := splitLinesFuel_none buf _ h
    simp only [List.foldl_nil, List.flatten_nil, List.append_nil]
    rw [hb]
    rfl
  | cons c cs ih =>
    intro st buf h
    simp only [List.foldl_cons]
    have hdrain : drainLines parse st (buf ++ c) =
        (foldRecords parse st (splitAllLines (buf ++ c)).1,
         (splitAllLines (buf ++ c)).2) :=
      drainFuel_eq_split parse (buf ++ c).length st (buf ++ c)
    rw [hdrain]
    have hrem : sseTakeLine (splitAllLines (buf ++ c)).2 = none :=
      splitLinesFuel_rem_none _ _ (Nat.le_refl _)
    rw [ih _ _ hrem]
    have happ := splitAll_append (buf ++ c).length (buf ++ c) cs.flatten
      (Nat.le_refl _)
    have hflat : buf ++ (c :: cs).flatten = (buf ++ c) ++ cs.flatten := by
      simp [List.flatten_cons, List.append_assoc]
    rw [hflat, happ]
    simp [foldRecords, List.foldl_append]

/-- C6 amended: for every chunking of a round's body, the decode loop of
the OpenAI-compatible variant consumes exactly the complete lines of the
concatenated body in order and then processes the trimmed remainder as one
final record (a blank remainder is a no-op), while the Anthropic variant
consumes only the complete lines and discards any unterminated remainder. -/
theorem spec_C6_amended
    (parse : List Char → Option (List Char) × Option (List Char))
    (chunks : List (List Char)) :
    streamRoundOpenai parse chunks =
      processDataLine parse
        (foldRecords parse initRound (splitAllLines chunks.flatten).1)
        (trimBoth (splitAllLines chunks.flatten).2) ∧
    streamRoundAnthropic parse chunks =
      foldRecords parse initRound (splitAllLines chunks.flatten).1 := by
  have hfold := foldDrain_eq parse chunks initRound [] sseTakeLine_nil
  simp only [List.nil_append] at hfold
  constructor
  · rw [show streamRoundOpenai parse chunks =
      (if trimBoth (chunks.foldl
            (fun acc chunk => drainLines parse acc.1 (acc.2 ++ chunk))
            (initRound, [])).2 ≠ [] then
        processDataLine parse
          (chunks.foldl
            (fun acc chunk => drainLines parse acc.1 (acc.2 ++ chunk))
            (initRound, [])).1
          (trimBoth (chunks.foldl
            (fun acc chunk => drainLines parse acc.1 (acc.2 ++ chunk))
            (initRound, [])).2)
      else (chunks.foldl
          (fun acc chunk => drainLines parse acc.1 (acc.2 ++ chunk))
          (initRound, [])).1) from rfl]
    rw [hfold]
    by_cases hb : trimBoth (splitAllLines chunks.flatten).2 = []
    · rw [if_neg (by simp [hb]), hb]
      rfl
    · rw [if_pos (by simp [hb])]
  · rw [show streamRoundAnthropic parse chunks =
      (chunks.foldl
        (fun acc chunk => drainLines parse acc.1 (acc.2 ++ chunk))
        (initRound, [])).1 from rfl]
    rw [hfold]

/-- Concrete payload decoder for the C6 counterexample: the whole payload
is the text delta, no completion reason. -/
def parseRaw : List Char → Option (List Char) × Option (List Char) :=
  fun d => (some d, none)

/-- Counterexample to C6 as stated: when the body ends with the partial
line `"data: tail"` (no terminating newline), the OpenAI-compatible round
processes it as one final record, but the Anthropic round discards it —
the remainder's content never reaches the Anthropic transcript. -/
theorem spec_C6_counterexample :
    (streamRoundAnthropic parseRaw [("data: tail").toList]).fullText = [] ∧
    (streamRoundAnthropic parseRaw [("data: tail").toList]).reason = none ∧
    (streamRoundOpenai parseRaw [("data: tail").toList]).fullText =
      "tail".toList := by
  decide

end NovelIDE
